import Mathlib

/-!
Shallow embedding of `src/bsvar.cpp` from the bsvars repository: the Gibbs
orchestrator `bsvar` for the homoskedastic structural VAR.

The orchestrator (the only function whose implementation is in `src/`) is
embedded faithfully:
* Armadillo matrices become `Mat` (explicit row/column counts plus
  column-major data, as in Armadillo's memory layout); `arma::vec` becomes
  `List ℚ`.
* The three conditional samplers `sample_hyperparameters`, `sample_A_homosk1`
  and `sample_B_homosk1` are declared in `sample_ABhyper.h` and implemented
  outside this repository's `src/` tree; the orchestrator is therefore
  parametrised over a record `SamplerOps` of state transformers with exactly
  the C++ call signatures (first argument mutated in place in C++, returned
  functionally here), threading an explicit random-stream state `Rng`.
* Host interaction is made explicit: `Progress::increment` calls and
  `checkUserInterrupt` polls are recorded as events, and a pending user
  interrupt is modelled by the host-supplied predicate `cancel : ℕ → Bool`
  (whether an interrupt is pending when the poll at iteration `s` runs).
  `Rcpp::checkUserInterrupt` throws when an interrupt is pending; the whole
  call then aborts with no return value, modelled by `Outcome.err`.
* Armadillo's conformance check on `cube::slice(s) = m` / `mat::col(s) = v`
  (the three history-recording assignments in lines 128-130) is modelled by
  the dimension tests in `body`; a failed check throws, aborting the call.
-/

/-- An Armadillo dense matrix: stored row and column counts plus
column-major data, mirroring `arma::mat`'s layout. -/
structure Mat where
  n_rows : Nat
  n_cols : Nat
  data : List ℚ
deriving DecidableEq, Repr

/-- The `starting_values` list of `bsvar`: fields `A`, `B`, `hyper`
(read in lines 109-111 of `bsvar.cpp`). -/
structure StartingValues where
  A : Mat
  B : Mat
  hyper : List ℚ
deriving DecidableEq, Repr

/-- The `prior` list of `bsvar`: named fields as documented in the roxygen
header of `bsvar.cpp`.  The orchestrator itself only passes it through to the
samplers. -/
structure Prior where
  A : Mat
  A_V_inv : Mat
  B_V_inv : Mat
  B_nu : ℚ
  hyper_nu : ℚ
  hyper_a : ℚ
  hyper_V : ℚ
  hyper_S : ℚ
deriving DecidableEq, Repr

/-- The three conditional samplers called by the Gibbs loop
(`sample_hyperparameters`, `sample_A_homosk1`, `sample_B_homosk1`,
declared in `sample_ABhyper.h`; implementations are not part of this
repository's `src/`).  Each is a pure function of the C++ arguments plus an
explicit random-stream state; it returns the new value of its first
(in C++: by-reference, mutated in place) argument together with the
advanced random stream. -/
structure SamplerOps (Rng : Type) where
  sample_hyperparameters : List ℚ → Mat → Mat → List Mat → Prior → Rng → List ℚ × Rng
  sample_A_homosk1 : Mat → Mat → List ℚ → Mat → Mat → Prior → Rng → Mat × Rng
  sample_B_homosk1 : Mat → Mat → List ℚ → Mat → Mat → Prior → List Mat → Rng → Mat × Rng

/-- Externally observable calls made by one run of the orchestrator. -/
inductive Event where
  | progress (s : Nat)
  | interruptCheck (s : Nat)
  | sampleHyper (s : Nat)
  | sampleA (s : Nat)
  | sampleB (s : Nat)
  | record (s : Nat)
deriving DecidableEq, Repr

/-- Ways a run of `bsvar` can abort: a pending user interrupt detected by
`checkUserInterrupt` (which throws), or an Armadillo conformance error when
a freshly drawn matrix/vector is assigned into history slice `s`
(lines 128-130). -/
inductive RunError where
  | interrupted
  | sliceDimMismatch (s : Nat)
deriving DecidableEq, Repr

/-- The mutable Gibbs state triple `(aux_A, aux_B, aux_hyper)` together with
the random stream (R's global RNG state, threaded explicitly). -/
structure GState (Rng : Type) where
  A : Mat
  B : Mat
  hyper : List ℚ
  rng : Rng
deriving DecidableEq

/-- Full state of the orchestrator loop: the Gibbs state plus the three
history buffers (`posterior_A`, `posterior_B`, `posterior_hyper`; slice `s`
is list index `s`) and the trace of host-visible events so far. -/
structure LoopState (Rng : Type) where
  aux : GState Rng
  hist_A : List Mat
  hist_B : List Mat
  hist_hyper : List (List ℚ)
  events : List Event
deriving DecidableEq

/-- Result of a run: either the final loop state, or the events emitted up
to an abort together with the error that aborted the call. -/
inductive Outcome (Rng : Type) where
  | ok (st : LoopState Rng)
  | err (events : List Event) (e : RunError)
deriving DecidableEq

/-- The value returned by `bsvar` (lines 133-144): the `last_draw` triple
and the three posterior history buffers, in the C++ field order. -/
structure BsvarResult where
  last_B : Mat
  last_A : Mat
  last_hyper : List ℚ
  posterior_B : List Mat
  posterior_A : List Mat
  posterior_hyper : List (List ℚ)
deriving DecidableEq, Repr

/-- The `i`-th of the 50 progress-report points
`arma::round(arma::linspace(0, S, 50))` (line 97): `linspace` point `i` is
`i·S/49`, and `arma::round` rounds half away from zero, so the rounded
value is `⌊(2·i·S + 49)/98⌋`. -/
def progPoint (S i : Nat) : Nat := (2 * i * S + 49) / 98

/-- Whether iteration `s` is a progress-report point:
`any(prog_rep_points == s)` (line 120). -/
def progHit (S s : Nat) : Bool := (List.range 50).any fun i => progPoint S i == s

section Orchestrator

variable {Rng : Type} (ops : SamplerOps Rng) (Y X : Mat) (VB : List Mat) (prior : Prior)

/-- One Gibbs cycle (lines 124-126): `sample_hyperparameters(aux_hyper,
aux_B, aux_A, VB, prior)`, then `sample_A_homosk1(aux_A, aux_B, aux_hyper,
Y, X, prior)`, then `sample_B_homosk1(aux_B, aux_A, aux_hyper, Y, X, prior,
VB)`.  The A sampler receives the hyper vector just drawn, and the B sampler
receives both the A matrix and the hyper vector just drawn, matching the
in-place mutation order of the C++ code. -/
def gibbsCycle (g : GState Rng) : GState Rng :=
  let h1 := ops.sample_hyperparameters g.hyper g.B g.A VB prior g.rng
  let a1 := ops.sample_A_homosk1 g.A g.B h1.1 Y X prior h1.2
  let b1 := ops.sample_B_homosk1 g.B a1.1 h1.1 Y X prior VB a1.2
  { A := a1.1, B := b1.1, hyper := h1.1, rng := b1.2 }

variable (S : Nat) (cancel : Nat → Bool)

/-- One iteration of the loop body (lines 117-131): progress increment when
`s` is a report point, `checkUserInterrupt` when `s % 200 == 0` (throwing if
an interrupt is pending), the three sampler calls, then the three history
slice assignments (`B` first, then `A`, then `hyper`), whose Armadillo
conformance checks compare the drawn dimensions against the allocated
`N×N`, `N×K` and `5`-row buffers (`N = Y.n_rows`, `K = X.n_rows`,
lines 106-107 and 113-115). -/
def body (s : Nat) (st : LoopState Rng) : Outcome Rng :=
  let ev0 := st.events ++ (if progHit S s then [Event.progress s] else [])
  let ev1 := ev0 ++ (if s % 200 = 0 then [Event.interruptCheck s] else [])
  if s % 200 = 0 ∧ cancel s then .err ev1 .interrupted
  else
    let g1 := gibbsCycle ops Y X VB prior st.aux
    let ev2 := ev1 ++ [Event.sampleHyper s, Event.sampleA s, Event.sampleB s]
    if g1.B.n_rows = Y.n_rows ∧ g1.B.n_cols = Y.n_rows then
      if g1.A.n_rows = Y.n_rows ∧ g1.A.n_cols = X.n_rows then
        if g1.hyper.length = 5 then
          .ok { aux := g1,
                hist_A := st.hist_A ++ [g1.A],
                hist_B := st.hist_B ++ [g1.B],
                hist_hyper := st.hist_hyper ++ [g1.hyper],
                events := ev2 ++ [Event.record s] }
        else .err ev2 (.sliceDimMismatch s)
      else .err ev2 (.sliceDimMismatch s)
    else .err ev2 (.sliceDimMismatch s)

/-- Run the loop from iteration `s` for `fuel` more iterations, stopping at
the first abort. -/
def runFrom : Nat → Nat → LoopState Rng → Outcome Rng
  | _, 0, st => .ok st
  | s, fuel + 1, st =>
    match body ops Y X VB prior S cancel s st with
    | .ok st1 => runFrom (s + 1) fuel st1
    | .err evs e => .err evs e

/-- The loop state entered at `s = 0`: the Gibbs state copied from
`starting_values` (lines 109-111), empty histories, no events yet. -/
def initState (sv : StartingValues) (rng : Rng) : LoopState Rng :=
  { aux := { A := sv.A, B := sv.B, hyper := sv.hyper, rng := rng },
    hist_A := [], hist_B := [], hist_hyper := [], events := [] }

/-- A whole run of the Gibbs loop of `bsvar`: loop from `s = 0` to
`S - 1` starting from `initState`. -/
def bsvarRun (sv : StartingValues) (rng : Rng) : Outcome Rng :=
  runFrom ops Y X VB prior S cancel 0 S (initState sv rng)

/-- The value `bsvar` returns (lines 133-144) on a completed run, packaged
from the final loop state. -/
def packageResult (st : LoopState Rng) : BsvarResult :=
  { last_B := st.aux.B, last_A := st.aux.A, last_hyper := st.aux.hyper,
    posterior_B := st.hist_B, posterior_A := st.hist_A,
    posterior_hyper := st.hist_hyper }

/-- The function `bsvar` (lines 87-145): run the loop and return the
`last_draw`/`posterior` result, or propagate the aborting error. -/
def bsvar (sv : StartingValues) (rng : Rng) : Except RunError BsvarResult :=
  match bsvarRun ops Y X VB prior S cancel sv rng with
  | .ok st => .ok (packageResult st)
  | .err _ e => .error e

/-- The events a run emitted, whether it completed or aborted. -/
def runEvents : Outcome Rng → List Event
  | .ok st => st.events
  | .err evs _ => evs

/-- Whether a run completed without aborting. -/
def outcomeOk : Outcome Rng → Bool
  | .ok _ => true
  | .err _ _ => false

/-- The events the loop body of iteration `s` emits when the iteration
completes: an optional progress increment, an optional interrupt poll, the
three sampler calls in their fixed order, and the recording of slice `s`. -/
def blockEvents (s : Nat) : List Event :=
  (if progHit S s then [Event.progress s] else []) ++
    (if s % 200 = 0 then [Event.interruptCheck s] else []) ++
    [Event.sampleHyper s, Event.sampleA s, Event.sampleB s, Event.record s]

/-- The `posterior_A` history recorded by a run (empty when the run
aborted: an aborted call returns nothing). -/
def histAOf : Outcome Rng → List Mat
  | .ok st => st.hist_A
  | .err _ _ => []

/-- The `posterior_B` history recorded by a run. -/
def histBOf : Outcome Rng → List Mat
  | .ok st => st.hist_B
  | .err _ _ => []

/-- The `posterior_hyper` history recorded by a run. -/
def histHyperOf : Outcome Rng → List (List ℚ)
  | .ok st => st.hist_hyper
  | .err _ _ => []

/-- The Gibbs states recorded as history slices by `fuel` consecutive
successful iterations starting from Gibbs state `g`: slice `j` holds the
`(j+1)`-st iterate of the Gibbs cycle. -/
def cycleSlices (fuel : Nat) (g : GState Rng) : List (GState Rng) :=
  (List.range fuel).map fun j => (gibbsCycle ops Y X VB prior)^[j + 1] g

end Orchestrator

/-- Whether an event is the recording of a history slice. -/
def isRecordEv : Event → Bool
  | .record _ => true
  | .progress _ => false
  | .interruptCheck _ => false
  | .sampleHyper _ => false
  | .sampleA _ => false
  | .sampleB _ => false

/-- Modelled from the spec: the implementation of `sample_hyperparameters`
is declared in `sample_ABhyper.h` but is not part of this repository's
`src/` tree.  Following §4.1 of the spec, each of the five shrinkage
hyperparameters is drawn from an inverse-gamma-2 full conditional: the draw
is `scale / deviate`, where the scale is a positive prior scale
(`hyper_S`, `hyper_a`, ... — abstracted as `scale prior i`) plus a
nonnegative quadratic form of the corresponding parameter matrix under its
prior precision (abstracted as `quad B A i`), and the deviate is a
chi-square deviate from the trusted RNG library (strictly positive with
probability one; the stream `dev` supplies the deviates of the `r`-th
sampler invocation).  The random stream state is the invocation counter. -/
def sampleHyperSpec (scale : Prior → Fin 5 → ℚ) (quad : Mat → Mat → Fin 5 → ℚ)
    (dev : Nat → Fin 5 → ℚ) :
    List ℚ → Mat → Mat → List Mat → Prior → Nat → List ℚ × Nat :=
  fun _hyper B A _VB prior r =>
    ((List.finRange 5).map fun i => (scale prior i + quad B A i) / dev r i, r + 1)

/-- Modelled from the spec: sampler operations whose hyperparameter sampler
is the inverse-gamma-2 model `sampleHyperSpec` and whose A/B samplers are
arbitrary (§4.2/§4.3: they overwrite only `A` resp. `B`). -/
def hyperSpecOps (scale : Prior → Fin 5 → ℚ) (quad : Mat → Mat → Fin 5 → ℚ)
    (dev : Nat → Fin 5 → ℚ)
    (fa : Mat → Mat → List ℚ → Mat → Mat → Prior → Nat → Mat × Nat)
    (fb : Mat → Mat → List ℚ → Mat → Mat → Prior → List Mat → Nat → Mat × Nat) :
    SamplerOps Nat :=
  { sample_hyperparameters := sampleHyperSpec scale quad dev,
    sample_A_homosk1 := fa,
    sample_B_homosk1 := fb }

/-! Concrete objects used by witnesses and counterexamples. -/

/-- Trivial samplers used in witnesses: each returns its first argument
unchanged. -/
def constOps : SamplerOps Unit :=
  { sample_hyperparameters := fun h _ _ _ _ r => (h, r),
    sample_A_homosk1 := fun a _ _ _ _ _ r => (a, r),
    sample_B_homosk1 := fun b _ _ _ _ _ _ r => (b, r) }

/-- A 1×1 witness matrix. -/
def matW : Mat := { n_rows := 1, n_cols := 1, data := [0] }

/-- A 2×2 witness matrix (used as `Y` in the C3 counterexample, giving
`N = 2`). -/
def matY2 : Mat := { n_rows := 2, n_cols := 2, data := [0, 0, 0, 0] }

/-- A 1×2 witness matrix (used as `X` in the C3 counterexample, giving
`K = 1`). -/
def matX2 : Mat := { n_rows := 1, n_cols := 2, data := [0, 0] }

/-- A concrete prior object for witnesses. -/
def priorW : Prior :=
  { A := matW, A_V_inv := matW, B_V_inv := matW, B_nu := 1,
    hyper_nu := 1, hyper_a := 1, hyper_V := 1, hyper_S := 1 }

/-- Concrete starting values (1 variable, 1 regressor) for witnesses. -/
def svW : StartingValues := { A := matW, B := matW, hyper := [1, 1, 1, 1, 1] }

/-- Samplers that ignore their inputs and return the fixed 1×1 matrix and a
fixed 5-vector; unlike `constOps`, their output dimensions are correct for
`Y = X = matW` whatever state they receive. -/
def fixedOps : SamplerOps Unit :=
  { sample_hyperparameters := fun _ _ _ _ _ r => ([1, 1, 1, 1, 1], r),
    sample_A_homosk1 := fun _ _ _ _ _ _ r => (matW, r),
    sample_B_homosk1 := fun _ _ _ _ _ _ _ r => (matW, r) }

/-- The result returned by the concrete one-draw witness run
`bsvar constOps matW matW [matW] priorW 1 (fun _ => false) svW ()`. -/
def resW1 : BsvarResult :=
  { last_B := matW, last_A := matW, last_hyper := [1, 1, 1, 1, 1],
    posterior_B := [matW], posterior_A := [matW],
    posterior_hyper := [[1, 1, 1, 1, 1]] }

/-! Lemmas about one loop iteration. -/

section BodyLemmas

variable {Rng : Type} (ops : SamplerOps Rng) (Y X : Mat) (VB : List Mat) (prior : Prior)
variable (S : Nat) (cancel : Nat → Bool)

theorem body_ok (s : Nat) (st st' : LoopState Rng)
    (h : body ops Y X VB prior S cancel s st = .ok st') :
    st'.aux = gibbsCycle ops Y X VB prior st.aux ∧
    st'.hist_A = st.hist_A ++ [st'.aux.A] ∧
    st'.hist_B = st.hist_B ++ [st'.aux.B] ∧
    st'.hist_hyper = st.hist_hyper ++ [st'.aux.hyper] ∧
    st'.events = st.events ++ blockEvents S s ∧
    st'.aux.B.n_rows = Y.n_rows ∧ st'.aux.B.n_cols = Y.n_rows ∧
    st'.aux.A.n_rows = Y.n_rows ∧ st'.aux.A.n_cols = X.n_rows ∧
    st'.aux.hyper.length = 5 := by
  simp only [body] at h
  by_cases hic : s % 200 = 0 ∧ cancel s = true
  · rw [if_pos hic] at h
    exact absurd h (by simp)
  · rw [if_neg hic] at h
    by_cases hB : (gibbsCycle ops Y X VB prior st.aux).B.n_rows = Y.n_rows ∧
        (gibbsCycle ops Y X VB prior st.aux).B.n_cols = Y.n_rows
    · rw [if_pos hB] at h
      by_cases hA : (gibbsCycle ops Y X VB prior st.aux).A.n_rows = Y.n_rows ∧
          (gibbsCycle ops Y X VB prior st.aux).A.n_cols = X.n_rows
      · rw [if_pos hA] at h
        by_cases hh : (gibbsCycle ops Y X VB prior st.aux).hyper.length = 5
        · rw [if_pos hh] at h
          injection h with h'
          subst h'
          refine ⟨rfl, rfl, rfl, rfl, ?_, hB.1, hB.2, hA.1, hA.2, hh⟩
          simp [blockEvents, List.append_assoc]
        · rw [if_neg hh] at h
          exact absurd h (by simp)
      · rw [if_neg hA] at h
        exact absurd h (by simp)
    · rw [if_neg hB] at h
      exact absurd h (by simp)

theorem body_eq_ok (s : Nat) (st : LoopState Rng)
    (hic : ¬(s % 200 = 0 ∧ cancel s = true))
    (hB1 : (gibbsCycle ops Y X VB prior st.aux).B.n_rows = Y.n_rows)
    (hB2 : (gibbsCycle ops Y X VB prior st.aux).B.n_cols = Y.n_rows)
    (hA1 : (gibbsCycle ops Y X VB prior st.aux).A.n_rows = Y.n_rows)
    (hA2 : (gibbsCycle ops Y X VB prior st.aux).A.n_cols = X.n_rows)
    (hh : (gibbsCycle ops Y X VB prior st.aux).hyper.length = 5) :
    body ops Y X VB prior S cancel s st = .ok
      { aux := gibbsCycle ops Y X VB prior st.aux,
        hist_A := st.hist_A ++ [(gibbsCycle ops Y X VB prior st.aux).A],
        hist_B := st.hist_B ++ [(gibbsCycle ops Y X VB prior st.aux).B],
        hist_hyper := st.hist_hyper ++ [(gibbsCycle ops Y X VB prior st.aux).hyper],
        events := st.events ++ blockEvents S s } := by
  simp only [body]
  rw [if_neg hic, if_pos ⟨hB1, hB2⟩, if_pos ⟨hA1, hA2⟩, if_pos hh]
  refine congrArg Outcome.ok ?_
  refine congrArg _ ?_
  simp [blockEvents, List.append_assoc]

theorem body_interrupted (s : Nat) (st : LoopState Rng)
    (hs : s % 200 = 0) (hc : cancel s = true) :
    body ops Y X VB prior S cancel s st =
      .err (st.events ++ (if progHit S s then [Event.progress s] else []) ++
        [Event.interruptCheck s]) .interrupted := by
  simp only [body]
  rw [if_pos ⟨hs, hc⟩, if_pos hs]

theorem body_err_events (s : Nat) (st : LoopState Rng) (evs : List Event) (e : RunError)
    (h : body ops Y X VB prior S cancel s st = .err evs e) :
    ∃ tail : List Event, evs = st.events ++ tail := by
  simp only [body] at h
  by_cases hic : s % 200 = 0 ∧ cancel s = true
  · rw [if_pos hic] at h
    injection h with h1 h2
    refine ⟨(if progHit S s = true then [Event.progress s] else []) ++
      (if s % 200 = 0 then [Event.interruptCheck s] else []), ?_⟩
    rw [← h1]
    simp [List.append_assoc]
  · rw [if_neg hic] at h
    by_cases hB : (gibbsCycle ops Y X VB prior st.aux).B.n_rows = Y.n_rows ∧
        (gibbsCycle ops Y X VB prior st.aux).B.n_cols = Y.n_rows
    · rw [if_pos hB] at h
      by_cases hA : (gibbsCycle ops Y X VB prior st.aux).A.n_rows = Y.n_rows ∧
          (gibbsCycle ops Y X VB prior st.aux).A.n_cols = X.n_rows
      · rw [if_pos hA] at h
        by_cases hh : (gibbsCycle ops Y X VB prior st.aux).hyper.length = 5
        · rw [if_pos hh] at h
          exact absurd h (by simp)
        · rw [if_neg hh] at h
          injection h with h1 h2
          refine ⟨(if progHit S s = true then [Event.progress s] else []) ++
            ((if s % 200 = 0 then [Event.interruptCheck s] else []) ++
              [Event.sampleHyper s, Event.sampleA s, Event.sampleB s]), ?_⟩
          rw [← h1]
          simp [List.append_assoc]
      · rw [if_neg hA] at h
        injection h with h1 h2
        refine ⟨(if progHit S s = true then [Event.progress s] else []) ++
          ((if s % 200 = 0 then [Event.interruptCheck s] else []) ++
            [Event.sampleHyper s, Event.sampleA s, Event.sampleB s]), ?_⟩
        rw [← h1]
        simp [List.append_assoc]
    · rw [if_neg hB] at h
      injection h with h1 h2
      refine ⟨(if progHit S s = true then [Event.progress s] else []) ++
        ((if s % 200 = 0 then [Event.interruptCheck s] else []) ++
          [Event.sampleHyper s, Event.sampleA s, Event.sampleB s]), ?_⟩
      rw [← h1]
      simp [List.append_assoc]

end BodyLemmas

/-! Lemmas about whole runs of the loop. -/

section RunLemmas

variable {Rng : Type} (ops : SamplerOps Rng) (Y X : Mat) (VB : List Mat) (prior : Prior)
variable (S : Nat) (cancel : Nat → Bool)

theorem cycleSlices_succ (n : Nat) (g : GState Rng) :
    cycleSlices ops Y X VB prior (n + 1) g =
      gibbsCycle ops Y X VB prior g ::
        cycleSlices ops Y X VB prior n (gibbsCycle ops Y X VB prior g) := by
  unfold cycleSlices
  rw [List.range_succ_eq_map, List.map_cons, List.map_map]
  refine congrArg₂ List.cons (by simp) ?_
  refine List.map_congr_left fun j hj => ?_
  simp [Function.comp, Function.iterate_succ_apply]

theorem cycleSlices_length (n : Nat) (g : GState Rng) :
    (cycleSlices ops Y X VB prior n g).length = n := by
  simp [cycleSlices]

theorem cycleSlices_getLast (n : Nat) (g : GState Rng) :
    (cycleSlices ops Y X VB prior (n + 1) g).getLast? =
      some ((gibbsCycle ops Y X VB prior)^[n + 1] g) := by
  unfold cycleSlices
  rw [List.range_succ, List.map_append]
  simp

theorem cycleSlices_mem (n : Nat) (g x : GState Rng)
    (hx : x ∈ cycleSlices ops Y X VB prior n g) :
    ∃ g0 : GState Rng, x = gibbsCycle ops Y X VB prior g0 := by
  unfold cycleSlices at hx
  simp only [List.mem_map, List.mem_range] at hx
  obtain ⟨j, _, rfl⟩ := hx
  exact ⟨(gibbsCycle ops Y X VB prior)^[j] g, (Function.iterate_succ_apply' _ _ _)⟩

theorem cycleSlices_getElem (n : Nat) (g : GState Rng) (j : Nat) (hj : j < n) :
    (cycleSlices ops Y X VB prior n g)[j]? =
      some ((gibbsCycle ops Y X VB prior)^[j + 1] g) := by
  unfold cycleSlices
  simp [List.getElem?_range, hj]

theorem runFrom_ok (fuel : Nat) :
    ∀ (s : Nat) (st st' : LoopState Rng),
      runFrom ops Y X VB prior S cancel s fuel st = .ok st' →
      st'.aux = (gibbsCycle ops Y X VB prior)^[fuel] st.aux ∧
      st'.hist_A = st.hist_A ++ (cycleSlices ops Y X VB prior fuel st.aux).map GState.A ∧
      st'.hist_B = st.hist_B ++ (cycleSlices ops Y X VB prior fuel st.aux).map GState.B ∧
      st'.hist_hyper =
        st.hist_hyper ++ (cycleSlices ops Y X VB prior fuel st.aux).map GState.hyper ∧
      st'.events = st.events ++ (List.range' s fuel).flatMap (blockEvents S) := by
  induction fuel with
  | zero =>
    intro s st st' h
    simp only [runFrom] at h
    injection h with h'
    subst h'
    simp [cycleSlices]
  | succ n ih =>
    intro s st st' h
    simp only [runFrom] at h
    cases hb : body ops Y X VB prior S cancel s st with
    | ok st1 =>
      rw [hb] at h
      obtain ⟨haux, hhA, hhB, hhH, hev, _, _, _, _, _⟩ :=
        body_ok ops Y X VB prior S cancel s st st1 hb
      obtain ⟨ihaux, ihA, ihB, ihH, ihev⟩ := ih (s + 1) st1 st' h
      have hcyc := cycleSlices_succ ops Y X VB prior n st.aux
      refine ⟨?_, ?_, ?_, ?_, ?_⟩
      · rw [ihaux, haux, ← Function.iterate_succ_apply]
      · rw [ihA, hhA, haux, hcyc]
        simp [List.append_assoc]
      · rw [ihB, hhB, haux, hcyc]
        simp [List.append_assoc]
      · rw [ihH, hhH, haux, hcyc]
        simp [List.append_assoc]
      · rw [ihev, hev, List.range'_succ]
        simp [List.append_assoc]
    | err evs e =>
      rw [hb] at h
      exact absurd h (by simp)

end RunLemmas

section RunLemmas2

variable {Rng : Type} (ops : SamplerOps Rng) (Y X : Mat) (VB : List Mat) (prior : Prior)
variable (S : Nat) (cancel : Nat → Bool)

theorem runFrom_add (a b : Nat) :
    ∀ (s : Nat) (st : LoopState Rng),
      runFrom ops Y X VB prior S cancel s (a + b) st =
        match runFrom ops Y X VB prior S cancel s a st with
        | .ok st1 => runFrom ops Y X VB prior S cancel (s + a) b st1
        | .err evs e => .err evs e := by
  induction a with
  | zero =>
    intro s st
    simp [runFrom]
  | succ n ih =>
    intro s st
    have hone : n + 1 + b = (n + b) + 1 := by omega
    rw [hone]
    simp only [runFrom]
    cases hb : body ops Y X VB prior S cancel s st with
    | ok st1 =>
      show runFrom ops Y X VB prior S cancel (s + 1) (n + b) st1 =
        match runFrom ops Y X VB prior S cancel (s + 1) n st1 with
        | .ok st2 => runFrom ops Y X VB prior S cancel (s + (n + 1)) b st2
        | .err evs e => .err evs e
      rw [ih (s + 1) st1]
      have htwo : s + (n + 1) = (s + 1) + n := by omega
      rw [htwo]
    | err evs e => rfl

theorem runFrom_ok_of (fuel : Nat)
    (hdims : ∀ g : GState Rng,
      (gibbsCycle ops Y X VB prior g).B.n_rows = Y.n_rows ∧
      (gibbsCycle ops Y X VB prior g).B.n_cols = Y.n_rows ∧
      (gibbsCycle ops Y X VB prior g).A.n_rows = Y.n_rows ∧
      (gibbsCycle ops Y X VB prior g).A.n_cols = X.n_rows ∧
      (gibbsCycle ops Y X VB prior g).hyper.length = 5) :
    ∀ (s : Nat) (st : LoopState Rng),
      (∀ t, s ≤ t → t < s + fuel → ¬(t % 200 = 0 ∧ cancel t = true)) →
      outcomeOk (runFrom ops Y X VB prior S cancel s fuel st) = true := by
  induction fuel with
  | zero =>
    intro s st _
    simp [runFrom, outcomeOk]
  | succ n ih =>
    intro s st hnc
    simp only [runFrom]
    obtain ⟨hB1, hB2, hA1, hA2, hh⟩ := hdims st.aux
    rw [body_eq_ok ops Y X VB prior S cancel s st (hnc s le_rfl (by omega)) hB1 hB2 hA1 hA2 hh]
    exact ih (s + 1) _ (fun t ht1 ht2 => hnc t (by omega) (by omega))

theorem runFrom_events_extend (fuel : Nat) :
    ∀ (s : Nat) (st : LoopState Rng),
      ∃ tail : List Event,
        runEvents (runFrom ops Y X VB prior S cancel s fuel st) = st.events ++ tail := by
  induction fuel with
  | zero =>
    intro s st
    exact ⟨[], by simp [runFrom, runEvents]⟩
  | succ n ih =>
    intro s st
    cases hb : body ops Y X VB prior S cancel s st with
    | ok st1 =>
      obtain ⟨tail, ht⟩ := ih (s + 1) st1
      obtain ⟨_, _, _, _, hev, _⟩ := body_ok ops Y X VB prior S cancel s st st1 hb
      refine ⟨blockEvents S s ++ tail, ?_⟩
      simp only [runFrom]
      rw [hb]
      show runEvents (runFrom ops Y X VB prior S cancel (s + 1) n st1) = _
      rw [ht, hev, List.append_assoc]
    | err evs e =>
      obtain ⟨tail, ht⟩ := body_err_events ops Y X VB prior S cancel s st evs e hb
      refine ⟨tail, ?_⟩
      simp only [runFrom]
      rw [hb]
      exact ht

theorem runFrom_ok_dims (fuel : Nat) :
    ∀ (s : Nat) (st st' : LoopState Rng),
      runFrom ops Y X VB prior S cancel s fuel st = .ok st' →
      (∀ m ∈ st'.hist_A, m ∈ st.hist_A ∨ (m.n_rows = Y.n_rows ∧ m.n_cols = X.n_rows)) ∧
      (∀ m ∈ st'.hist_B, m ∈ st.hist_B ∨ (m.n_rows = Y.n_rows ∧ m.n_cols = Y.n_rows)) ∧
      (∀ v ∈ st'.hist_hyper, v ∈ st.hist_hyper ∨ v.length = 5) := by
  induction fuel with
  | zero =>
    intro s st st' h
    simp only [runFrom] at h
    injection h with h'
    subst h'
    exact ⟨fun m hm => Or.inl hm, fun m hm => Or.inl hm, fun v hv => Or.inl hv⟩
  | succ n ih =>
    intro s st st' h
    simp only [runFrom] at h
    cases hb : body ops Y X VB prior S cancel s st with
    | ok st1 =>
      rw [hb] at h
      obtain ⟨haux, hhA, hhB, hhH, _, hB1, hB2, hA1, hA2, hh5⟩ :=
        body_ok ops Y X VB prior S cancel s st st1 hb
      obtain ⟨iA, iB, iH⟩ := ih (s + 1) st1 st' h
      refine ⟨fun m hm => ?_, fun m hm => ?_, fun v hv => ?_⟩
      · rcases iA m hm with hmem | hd
        · rw [hhA] at hmem
          rcases List.mem_append.1 hmem with h1 | h1
          · exact Or.inl h1
          · rw [List.mem_singleton.1 h1]
            exact Or.inr ⟨hA1, hA2⟩
        · exact Or.inr hd
      · rcases iB m hm with hmem | hd
        · rw [hhB] at hmem
          rcases List.mem_append.1 hmem with h1 | h1
          · exact Or.inl h1
          · rw [List.mem_singleton.1 h1]
            exact Or.inr ⟨hB1, hB2⟩
        · exact Or.inr hd
      · rcases iH v hv with hmem | hd
        · rw [hhH] at hmem
          rcases List.mem_append.1 hmem with h1 | h1
          · exact Or.inl h1
          · rw [List.mem_singleton.1 h1]
            exact Or.inr hh5
        · exact Or.inr hd
    | err evs e =>
      rw [hb] at h
      exact absurd h (by simp)

end RunLemmas2

/-! Lemmas about progress points and event blocks. -/

theorem progPoint_zero (S : Nat) : progPoint S 0 = 0 := by
  unfold progPoint
  norm_num

theorem progHit_zero (S : Nat) : progHit S 0 = true := by
  unfold progHit
  rw [List.any_eq_true]
  exact ⟨0, by simp, by simp [progPoint_zero]⟩

theorem progress_mem_blockEvents (S t u : Nat) :
    Event.progress u ∈ blockEvents S t ↔ (u = t ∧ progHit S t = true) := by
  unfold blockEvents
  by_cases hp : progHit S t = true <;> by_cases hm : t % 200 = 0 <;>
    simp [hp, hm, eq_comm]

theorem interruptCheck_mem_blockEvents (S t u : Nat) :
    Event.interruptCheck u ∈ blockEvents S t ↔ (u = t ∧ t % 200 = 0) := by
  unfold blockEvents
  by_cases hp : progHit S t = true <;> by_cases hm : t % 200 = 0 <;>
    simp [hp, hm, eq_comm]

theorem blockEvents_countP (S t : Nat) : (blockEvents S t).countP isRecordEv = 1 := by
  unfold blockEvents
  by_cases hp : progHit S t = true <;> by_cases hm : t % 200 = 0 <;>
    simp [hp, hm, List.countP_append, List.countP_cons, isRecordEv]

theorem flatMap_countP_record (S : Nat) (l : List Nat) :
    (l.flatMap (blockEvents S)).countP isRecordEv = l.length := by
  induction l with
  | nil => simp
  | cons a l ih =>
    simp [List.flatMap_cons, List.countP_append, blockEvents_countP, ih]
    omega

theorem progSet_card_le (S : Nat) :
    ((Finset.range S).filter fun u => progHit S u = true).card ≤ 50 := by
  have hsub : ((Finset.range S).filter fun u => progHit S u = true) ⊆
      (Finset.range 50).image (progPoint S) := by
    intro u hu
    rw [Finset.mem_filter] at hu
    obtain ⟨-, hp⟩ := hu
    unfold progHit at hp
    rw [List.any_eq_true] at hp
    obtain ⟨i, hi, hpi⟩ := hp
    rw [Finset.mem_image]
    exact ⟨i, by simpa using hi, by simpa using hpi⟩
  calc ((Finset.range S).filter fun u => progHit S u = true).card
      ≤ ((Finset.range 50).image (progPoint S)).card := Finset.card_le_card hsub
    _ ≤ (Finset.range 50).card := Finset.card_image_le
    _ = 50 := by simp

/-! The claims. -/

/-- C1: for every valid (completed) run of `bsvar` over `N`-variable,
`K`-regressor data with `S ≥ 1` draws, the returned posterior A history has
shape `N×K×S` (`S` slices, each `N×K`), the posterior B history has shape
`N×N×S`, the posterior hyper history has shape `5×S`, and the returned
`last_draw` triple `(A, B, hyper)` equals the `S`-th (final) recorded
history slice exactly. -/
theorem bsvar_C1_shapes_and_last_draw {Rng : Type} (ops : SamplerOps Rng) (Y X : Mat)
    (VB : List Mat) (prior : Prior) (S : Nat) (cancel : Nat → Bool)
    (sv : StartingValues) (rng : Rng) (res : BsvarResult)
    (h : bsvar ops Y X VB prior S cancel sv rng = Except.ok res) (hS : 1 ≤ S) :
    res.posterior_A.length = S ∧
    (∀ m ∈ res.posterior_A, m.n_rows = Y.n_rows ∧ m.n_cols = X.n_rows) ∧
    res.posterior_B.length = S ∧
    (∀ m ∈ res.posterior_B, m.n_rows = Y.n_rows ∧ m.n_cols = Y.n_rows) ∧
    res.posterior_hyper.length = S ∧
    (∀ v ∈ res.posterior_hyper, v.length = 5) ∧
    res.posterior_A[S - 1]? = some res.last_A ∧
    res.posterior_B[S - 1]? = some res.last_B ∧
    res.posterior_hyper[S - 1]? = some res.last_hyper := by
  unfold bsvar at h
  cases hr : bsvarRun ops Y X VB prior S cancel sv rng with
  | err evs e =>
    rw [hr] at h
    exact absurd h (by simp)
  | ok st =>
    rw [hr] at h
    injection h with h'
    subst h'
    unfold bsvarRun at hr
    obtain ⟨haux, hA, hB, hH, hev⟩ :=
      runFrom_ok ops Y X VB prior S cancel S 0 (initState sv rng) st hr
    obtain ⟨dA, dB, dH⟩ :=
      runFrom_ok_dims ops Y X VB prior S cancel S 0 (initState sv rng) st hr
    simp only [packageResult]
    refine ⟨?_, ?_, ?_, ?_, ?_, ?_, ?_, ?_, ?_⟩
    · rw [hA]
      simp [initState, cycleSlices_length]
    · intro m hm
      rcases dA m hm with hmem | hd
      · simp [initState] at hmem
      · exact hd
    · rw [hB]
      simp [initState, cycleSlices_length]
    · intro m hm
      rcases dB m hm with hmem | hd
      · simp [initState] at hmem
      · exact hd
    · rw [hH]
      simp [initState, cycleSlices_length]
    · intro v hv
      rcases dH v hv with hmem | hd
      · simp [initState] at hmem
      · exact hd
    · rw [hA, haux]
      have h1 : ((initState sv rng).hist_A ++
          List.map GState.A (cycleSlices ops Y X VB prior S (initState sv rng).aux))[S - 1]? =
          (List.map GState.A (cycleSlices ops Y X VB prior S (initState sv rng).aux))[S - 1]? := by
        simp [initState]
      rw [h1, List.getElem?_map,
        cycleSlices_getElem ops Y X VB prior S (initState sv rng).aux (S - 1) (by omega)]
      have h2 : S - 1 + 1 = S := by omega
      rw [h2]
      rfl
    · rw [hB, haux]
      have h1 : ((initState sv rng).hist_B ++
          List.map GState.B (cycleSlices ops Y X VB prior S (initState sv rng).aux))[S - 1]? =
          (List.map GState.B (cycleSlices ops Y X VB prior S (initState sv rng).aux))[S - 1]? := by
        simp [initState]
      rw [h1, List.getElem?_map,
        cycleSlices_getElem ops Y X VB prior S (initState sv rng).aux (S - 1) (by omega)]
      have h2 : S - 1 + 1 = S := by omega
      rw [h2]
      rfl
    · rw [hH, haux]
      have h1 : ((initState sv rng).hist_hyper ++
          List.map GState.hyper (cycleSlices ops Y X VB prior S (initState sv rng).aux))[S - 1]? =
          (List.map GState.hyper (cycleSlices ops Y X VB prior S (initState sv rng).aux))[S - 1]? := by
        simp [initState]
      rw [h1, List.getElem?_map,
        cycleSlices_getElem ops Y X VB prior S (initState sv rng).aux (S - 1) (by omega)]
      have h2 : S - 1 + 1 = S := by omega
      rw [h2]
      rfl

/-- Witness for C1: the one-draw run with trivial samplers completes with
result `resW1`, and the theorem's conclusions hold for it. -/
theorem bsvar_C1_witness :
    resW1.posterior_A.length = 1 ∧
    (∀ m ∈ resW1.posterior_A, m.n_rows = matW.n_rows ∧ m.n_cols = matW.n_rows) ∧
    resW1.posterior_B.length = 1 ∧
    (∀ m ∈ resW1.posterior_B, m.n_rows = matW.n_rows ∧ m.n_cols = matW.n_rows) ∧
    resW1.posterior_hyper.length = 1 ∧
    (∀ v ∈ resW1.posterior_hyper, v.length = 5) ∧
    resW1.posterior_A[1 - 1]? = some resW1.last_A ∧
    resW1.posterior_B[1 - 1]? = some resW1.last_B ∧
    resW1.posterior_hyper[1 - 1]? = some resW1.last_hyper :=
  bsvar_C1_shapes_and_last_draw constOps matW matW [matW] priorW 1 (fun _ => false)
    svW () resW1 rfl (by decide)

/-- C7: two-run determinism. `bsvar` threads the random stream and the host
interrupt behaviour as explicit inputs; given identical sampler
implementations, inputs and random stream, two runs return identical
results — in particular identical posterior histories.  The output is a
function of the inputs and the random stream only. -/
theorem bsvar_C7_determinism {Rng : Type} (ops1 ops2 : SamplerOps Rng)
    (Y1 Y2 X1 X2 : Mat) (VB1 VB2 : List Mat) (prior1 prior2 : Prior) (S1 S2 : Nat)
    (cancel1 cancel2 : Nat → Bool) (sv1 sv2 : StartingValues) (rng1 rng2 : Rng)
    (hops : ops1 = ops2) (hY : Y1 = Y2) (hX : X1 = X2) (hVB : VB1 = VB2)
    (hprior : prior1 = prior2) (hS : S1 = S2) (hcancel : cancel1 = cancel2)
    (hsv : sv1 = sv2) (hrng : rng1 = rng2) :
    bsvar ops1 Y1 X1 VB1 prior1 S1 cancel1 sv1 rng1 =
      bsvar ops2 Y2 X2 VB2 prior2 S2 cancel2 sv2 rng2 ∧
    (bsvar ops1 Y1 X1 VB1 prior1 S1 cancel1 sv1 rng1).map
        (fun r => (r.posterior_A, r.posterior_B, r.posterior_hyper)) =
      (bsvar ops2 Y2 X2 VB2 prior2 S2 cancel2 sv2 rng2).map
        (fun r => (r.posterior_A, r.posterior_B, r.posterior_hyper)) := by
  subst hops hY hX hVB hprior hS hcancel hsv hrng
  exact ⟨rfl, rfl⟩

/-- Witness for C7: the determinism theorem applied to two syntactically
identical concrete runs. -/
theorem bsvar_C7_witness :
    bsvar constOps matW matW [matW] priorW 3 (fun _ => false) svW () =
      bsvar constOps matW matW [matW] priorW 3 (fun _ => false) svW () ∧
    (bsvar constOps matW matW [matW] priorW 3 (fun _ => false) svW ()).map
        (fun r => (r.posterior_A, r.posterior_B, r.posterior_hyper)) =
      (bsvar constOps matW matW [matW] priorW 3 (fun _ => false) svW ()).map
        (fun r => (r.posterior_A, r.posterior_B, r.posterior_hyper)) :=
  bsvar_C7_determinism constOps constOps matW matW matW matW [matW] [matW]
    priorW priorW 3 3 (fun _ => false) (fun _ => false) svW svW () ()
    rfl rfl rfl rfl rfl rfl rfl rfl rfl

/-- C10: called with `S = 0`, `bsvar` raises no error: the loop body never
executes (no events at all, so no sampler call and no poll), the returned
posterior histories have zero slices, and `last_draw` equals the supplied
`starting_values` unchanged. -/
theorem bsvar_C10_zero_draws {Rng : Type} (ops : SamplerOps Rng) (Y X : Mat)
    (VB : List Mat) (prior : Prior) (cancel : Nat → Bool) (sv : StartingValues)
    (rng : Rng) :
    bsvar ops Y X VB prior 0 cancel sv rng =
      Except.ok { last_B := sv.B, last_A := sv.A, last_hyper := sv.hyper,
                  posterior_B := [], posterior_A := [], posterior_hyper := [] } ∧
    runEvents (bsvarRun ops Y X VB prior 0 cancel sv rng) = [] :=
  ⟨rfl, rfl⟩

/-- C2: in every iteration `s = 0..S-1` of a completed run, the orchestrator
emits its events in the fixed per-iteration order given by `blockEvents`
(optional progress increment, optional interrupt poll, then
`sample_hyperparameters`, then `sample_A_homosk1`, then `sample_B_homosk1`,
then the recording of slice `s`), and slice `s` of each history equals the
`(s+1)`-st iterate of `gibbsCycle` on the starting state — `gibbsCycle`
feeds the hyper vector drawn by the hyperparameter sampler to the A sampler,
and both the new A and the new hyper vector to the B sampler, so each
sampler reads the state just updated by its predecessor. -/
theorem bsvar_C2_fixed_order {Rng : Type} (ops : SamplerOps Rng) (Y X : Mat)
    (VB : List Mat) (prior : Prior) (S : Nat) (cancel : Nat → Bool)
    (sv : StartingValues) (rng : Rng)
    (h : outcomeOk (bsvarRun ops Y X VB prior S cancel sv rng) = true) :
    runEvents (bsvarRun ops Y X VB prior S cancel sv rng) =
      (List.range S).flatMap (blockEvents S) ∧
    ∀ s, s < S →
      (histAOf (bsvarRun ops Y X VB prior S cancel sv rng))[s]? =
        some ((gibbsCycle ops Y X VB prior)^[s + 1] (initState sv rng).aux).A ∧
      (histBOf (bsvarRun ops Y X VB prior S cancel sv rng))[s]? =
        some ((gibbsCycle ops Y X VB prior)^[s + 1] (initState sv rng).aux).B ∧
      (histHyperOf (bsvarRun ops Y X VB prior S cancel sv rng))[s]? =
        some ((gibbsCycle ops Y X VB prior)^[s + 1] (initState sv rng).aux).hyper := by
  cases hr : bsvarRun ops Y X VB prior S cancel sv rng with
  | err evs e =>
    rw [hr] at h
    simp [outcomeOk] at h
  | ok st =>
    have hr' := hr
    unfold bsvarRun at hr'
    obtain ⟨haux, hA, hB, hH, hev⟩ :=
      runFrom_ok ops Y X VB prior S cancel S 0 (initState sv rng) st hr'
    simp only [runEvents, histAOf, histBOf, histHyperOf]
    constructor
    · rw [hev]
      simp [initState, List.range_eq_range']
    · intro s hs
      refine ⟨?_, ?_, ?_⟩
      · rw [hA]
        have h1 : ((initState sv rng).hist_A ++
            List.map GState.A (cycleSlices ops Y X VB prior S (initState sv rng).aux))[s]? =
            (List.map GState.A (cycleSlices ops Y X VB prior S (initState sv rng).aux))[s]? := by
          simp [initState]
        rw [h1, List.getElem?_map,
          cycleSlices_getElem ops Y X VB prior S (initState sv rng).aux s hs]
        rfl
      · rw [hB]
        have h1 : ((initState sv rng).hist_B ++
            List.map GState.B (cycleSlices ops Y X VB prior S (initState sv rng).aux))[s]? =
            (List.map GState.B (cycleSlices ops Y X VB prior S (initState sv rng).aux))[s]? := by
          simp [initState]
        rw [h1, List.getElem?_map,
          cycleSlices_getElem ops Y X VB prior S (initState sv rng).aux s hs]
        rfl
      · rw [hH]
        have h1 : ((initState sv rng).hist_hyper ++
            List.map GState.hyper (cycleSlices ops Y X VB prior S (initState sv rng).aux))[s]? =
            (List.map GState.hyper (cycleSlices ops Y X VB prior S (initState sv rng).aux))[s]? := by
          simp [initState]
        rw [h1, List.getElem?_map,
          cycleSlices_getElem ops Y X VB prior S (initState sv rng).aux s hs]
        rfl

/-- Witness for C2: the fixed-order theorem applied to the concrete
one-draw run with trivial samplers. -/
theorem bsvar_C2_witness :
    runEvents (bsvarRun constOps matW matW [matW] priorW 1 (fun _ => false) svW ()) =
      (List.range 1).flatMap (blockEvents 1) ∧
    ∀ s, s < 1 →
      (histAOf (bsvarRun constOps matW matW [matW] priorW 1 (fun _ => false) svW ()))[s]? =
        some ((gibbsCycle constOps matW matW [matW] priorW)^[s + 1] (initState svW ()).aux).A ∧
      (histBOf (bsvarRun constOps matW matW [matW] priorW 1 (fun _ => false) svW ()))[s]? =
        some ((gibbsCycle constOps matW matW [matW] priorW)^[s + 1] (initState svW ()).aux).B ∧
      (histHyperOf (bsvarRun constOps matW matW [matW] priorW 1 (fun _ => false) svW ()))[s]? =
        some ((gibbsCycle constOps matW matW [matW] priorW)^[s + 1] (initState svW ()).aux).hyper :=
  bsvar_C2_fixed_order constOps matW matW [matW] priorW 1 (fun _ => false) svW () (by decide)

/-- C5: in a completed run the progress signal is emitted exactly at the
iterations in the report-point set `round(linspace(0, S, 50))` (an evenly
spaced set, and no iteration outside it triggers an emission), and the
number of emitting iterations is bounded by the fixed count 50,
independently of the chain length `S`. -/
theorem bsvar_C5_progress_bound {Rng : Type} (ops : SamplerOps Rng) (Y X : Mat)
    (VB : List Mat) (prior : Prior) (S : Nat) (cancel : Nat → Bool)
    (sv : StartingValues) (rng : Rng)
    (h : outcomeOk (bsvarRun ops Y X VB prior S cancel sv rng) = true) :
    (∀ u, Event.progress u ∈ runEvents (bsvarRun ops Y X VB prior S cancel sv rng) ↔
      (u < S ∧ progHit S u = true)) ∧
    ((Finset.range S).filter fun u => progHit S u = true).card ≤ 50 := by
  refine ⟨?_, progSet_card_le S⟩
  cases hr : bsvarRun ops Y X VB prior S cancel sv rng with
  | err evs e =>
    rw [hr] at h
    simp [outcomeOk] at h
  | ok st =>
    have hr' := hr
    unfold bsvarRun at hr'
    obtain ⟨-, -, -, -, hev⟩ :=
      runFrom_ok ops Y X VB prior S cancel S 0 (initState sv rng) st hr'
    intro u
    simp only [runEvents]
    rw [hev, ← List.range_eq_range']
    simp only [initState, List.nil_append, List.mem_flatMap, List.mem_range]
    constructor
    · rintro ⟨t, ht, hmem⟩
      obtain ⟨rfl, hp⟩ := (progress_mem_blockEvents S t u).1 hmem
      exact ⟨ht, hp⟩
    · rintro ⟨hu, hp⟩
      exact ⟨u, hu, (progress_mem_blockEvents S u u).2 ⟨rfl, hp⟩⟩

/-- Witness for C5: the progress characterization applied to the concrete
one-draw run with trivial samplers. -/
theorem bsvar_C5_witness :
    (∀ u, Event.progress u ∈
        runEvents (bsvarRun constOps matW matW [matW] priorW 1 (fun _ => false) svW ()) ↔
      (u < 1 ∧ progHit 1 u = true)) ∧
    ((Finset.range 1).filter fun u => progHit 1 u = true).card ≤ 50 :=
  bsvar_C5_progress_bound constOps matW matW [matW] priorW 1 (fun _ => false) svW ()
    (by decide)

/-- C6: in a completed run the cooperative cancellation poll
(`checkUserInterrupt`) is performed exactly at the iterations `u < S` with
`u % 200 = 0` — including `u = 0` — and at no other iteration. -/
theorem bsvar_C6_poll_stride {Rng : Type} (ops : SamplerOps Rng) (Y X : Mat)
    (VB : List Mat) (prior : Prior) (S : Nat) (cancel : Nat → Bool)
    (sv : StartingValues) (rng : Rng)
    (h : outcomeOk (bsvarRun ops Y X VB prior S cancel sv rng) = true) :
    ∀ u, Event.interruptCheck u ∈
        runEvents (bsvarRun ops Y X VB prior S cancel sv rng) ↔
      (u < S ∧ u % 200 = 0) := by
  cases hr : bsvarRun ops Y X VB prior S cancel sv rng with
  | err evs e =>
    rw [hr] at h
    simp [outcomeOk] at h
  | ok st =>
    have hr' := hr
    unfold bsvarRun at hr'
    obtain ⟨-, -, -, -, hev⟩ :=
      runFrom_ok ops Y X VB prior S cancel S 0 (initState sv rng) st hr'
    intro u
    simp only [runEvents]
    rw [hev, ← List.range_eq_range']
    simp only [initState, List.nil_append, List.mem_flatMap, List.mem_range]
    constructor
    · rintro ⟨t, ht, hmem⟩
      obtain ⟨rfl, hp⟩ := (interruptCheck_mem_blockEvents S t u).1 hmem
      exact ⟨ht, hp⟩
    · rintro ⟨hu, hp⟩
      exact ⟨u, hu, (interruptCheck_mem_blockEvents S u u).2 ⟨rfl, hp⟩⟩

/-- Witness for C6: the poll-stride characterization applied to the concrete
one-draw run, instantiated at iteration 0. -/
theorem bsvar_C6_witness :
    Event.interruptCheck 0 ∈
        runEvents (bsvarRun constOps matW matW [matW] priorW 1 (fun _ => false) svW ()) ↔
      (0 < 1 ∧ 0 % 200 = 0) :=
  bsvar_C6_poll_stride constOps matW matW [matW] priorW 1 (fun _ => false) svW ()
    (by decide) 0

/-- Decomposition of a completed run: if `a + b` iterations complete, the
first `a` iterations complete on their own, and the remaining `b`
iterations continue from the intermediate state. -/
theorem runFrom_prefix_ok {Rng : Type} (ops : SamplerOps Rng) (Y X : Mat) (VB : List Mat)
    (prior : Prior) (S : Nat) (cancel : Nat → Bool) (a b : Nat) :
    ∀ (s : Nat) (st st2 : LoopState Rng),
      runFrom ops Y X VB prior S cancel s (a + b) st = .ok st2 →
      ∃ st1 : LoopState Rng,
        runFrom ops Y X VB prior S cancel s a st = .ok st1 ∧
        runFrom ops Y X VB prior S cancel (s + a) b st1 = .ok st2 := by
  induction a with
  | zero =>
    intro s st st2 h
    exact ⟨st, rfl, by simpa using h⟩
  | succ n ih =>
    intro s st st2 h
    rw [show n + 1 + b = (n + b) + 1 from by omega] at h
    simp only [runFrom] at h ⊢
    cases hb : body ops Y X VB prior S cancel s st with
    | ok st1 =>
      rw [hb] at h
      obtain ⟨stm, h1, h2⟩ := ih (s + 1) st1 st2 h
      refine ⟨stm, ?_, ?_⟩
      · exact h1
      · rw [show s + (n + 1) = (s + 1) + n from by omega]
        exact h2
    | err evs e =>
      rw [hb] at h
      exact absurd h (by simp)

/-- C9: the three history buffers are append-only.  If `t2` iterations of a
run complete, then the first `t1 ≤ t2` iterations complete on their own with
exactly `t1` recorded slices, and every slice `s < t1` of the state after
`t2` iterations is identical to the slice recorded by iteration `s` (present
already after `t1` iterations): no later iteration modifies a
lower-indexed slice, and the returned result copies the final buffers
verbatim. -/
theorem bsvar_C9_append_only {Rng : Type} (ops : SamplerOps Rng) (Y X : Mat)
    (VB : List Mat) (prior : Prior) (S : Nat) (cancel : Nat → Bool)
    (sv : StartingValues) (rng : Rng) (t1 t2 : Nat) (h12 : t1 ≤ t2)
    (h2 : outcomeOk (runFrom ops Y X VB prior S cancel 0 t2 (initState sv rng)) = true) :
    outcomeOk (runFrom ops Y X VB prior S cancel 0 t1 (initState sv rng)) = true ∧
    (histAOf (runFrom ops Y X VB prior S cancel 0 t1 (initState sv rng))).length = t1 ∧
    ∀ s, s < t1 →
      (histAOf (runFrom ops Y X VB prior S cancel 0 t2 (initState sv rng)))[s]? =
        (histAOf (runFrom ops Y X VB prior S cancel 0 t1 (initState sv rng)))[s]? ∧
      (histBOf (runFrom ops Y X VB prior S cancel 0 t2 (initState sv rng)))[s]? =
        (histBOf (runFrom ops Y X VB prior S cancel 0 t1 (initState sv rng)))[s]? ∧
      (histHyperOf (runFrom ops Y X VB prior S cancel 0 t2 (initState sv rng)))[s]? =
        (histHyperOf (runFrom ops Y X VB prior S cancel 0 t1 (initState sv rng)))[s]? := by
  cases hr2 : runFrom ops Y X VB prior S cancel 0 t2 (initState sv rng) with
  | err evs e =>
    rw [hr2] at h2
    simp [outcomeOk] at h2
  | ok st2 =>
    have h' : runFrom ops Y X VB prior S cancel 0 (t1 + (t2 - t1)) (initState sv rng) =
        .ok st2 := by
      rw [show t1 + (t2 - t1) = t2 from by omega]
      exact hr2
    obtain ⟨st1, h1, hseg⟩ :=
      runFrom_prefix_ok ops Y X VB prior S cancel t1 (t2 - t1) 0 (initState sv rng) st2 h'
    obtain ⟨-, hA1, hB1, hH1, -⟩ :=
      runFrom_ok ops Y X VB prior S cancel t1 0 (initState sv rng) st1 h1
    obtain ⟨-, hA2, hB2, hH2, -⟩ :=
      runFrom_ok ops Y X VB prior S cancel (t2 - t1) (0 + t1) st1 st2 hseg
    have hlenA : st1.hist_A.length = t1 := by
      rw [hA1]
      simp [initState, cycleSlices_length]
    have hlenB : st1.hist_B.length = t1 := by
      rw [hB1]
      simp [initState, cycleSlices_length]
    have hlenH : st1.hist_hyper.length = t1 := by
      rw [hH1]
      simp [initState, cycleSlices_length]
    rw [h1]
    refine ⟨rfl, ?_, ?_⟩
    · simp only [histAOf]
      exact hlenA
    · intro s hs
      simp only [histAOf, histBOf, histHyperOf]
      refine ⟨?_, ?_, ?_⟩
      · rw [hA2, List.getElem?_append_left (by rw [hlenA]; exact hs)]
      · rw [hB2, List.getElem?_append_left (by rw [hlenB]; exact hs)]
      · rw [hH2, List.getElem?_append_left (by rw [hlenH]; exact hs)]

/-- Witness for C9: the append-only theorem applied to the concrete
two-draw run with trivial samplers, with `t1 = 1`, `t2 = 2`. -/
theorem bsvar_C9_witness :
    outcomeOk (runFrom constOps matW matW [matW] priorW 2 (fun _ => false) 0 1
      (initState svW ())) = true ∧
    (histAOf (runFrom constOps matW matW [matW] priorW 2 (fun _ => false) 0 1
      (initState svW ()))).length = 1 ∧
    ∀ s, s < 1 →
      (histAOf (runFrom constOps matW matW [matW] priorW 2 (fun _ => false) 0 2
          (initState svW ())))[s]? =
        (histAOf (runFrom constOps matW matW [matW] priorW 2 (fun _ => false) 0 1
          (initState svW ())))[s]? ∧
      (histBOf (runFrom constOps matW matW [matW] priorW 2 (fun _ => false) 0 2
          (initState svW ())))[s]? =
        (histBOf (runFrom constOps matW matW [matW] priorW 2 (fun _ => false) 0 1
          (initState svW ())))[s]? ∧
      (histHyperOf (runFrom constOps matW matW [matW] priorW 2 (fun _ => false) 0 2
          (initState svW ())))[s]? =
        (histHyperOf (runFrom constOps matW matW [matW] priorW 2 (fun _ => false) 0 1
          (initState svW ())))[s]? :=
  bsvar_C9_append_only constOps matW matW [matW] priorW 2 (fun _ => false) svW () 1 2
    (by decide) (by decide)

/-- C8 (spec-modelled hyperparameter sampler): with `sample_hyperparameters`
modelled from §4.1 of the spec as inverse-gamma-2 draws
`(scale + quadratic form) / chi-square deviate` — positive prior scales,
nonnegative quadratic forms (the spec's precondition that the precision
inputs are non-degenerate), strictly positive deviates from the trusted RNG —
every entry of every recorded posterior hyper slice is strictly positive:
the sampler never writes a zero or negative shrinkage value into the state. -/
theorem bsvar_C8_hyper_positive (scale : Prior → Fin 5 → ℚ)
    (quad : Mat → Mat → Fin 5 → ℚ) (dev : Nat → Fin 5 → ℚ)
    (fa : Mat → Mat → List ℚ → Mat → Mat → Prior → Nat → Mat × Nat)
    (fb : Mat → Mat → List ℚ → Mat → Mat → Prior → List Mat → Nat → Mat × Nat)
    (Y X : Mat) (VB : List Mat) (prior : Prior) (S : Nat) (cancel : Nat → Bool)
    (sv : StartingValues) (rng : Nat)
    (hscale : ∀ i, 0 < scale prior i) (hquad : ∀ B A i, 0 ≤ quad B A i)
    (hdev : ∀ r i, 0 < dev r i) :
    ∀ v ∈ histHyperOf
        (bsvarRun (hyperSpecOps scale quad dev fa fb) Y X VB prior S cancel sv rng),
      ∀ x ∈ v, 0 < x := by
  cases hr : bsvarRun (hyperSpecOps scale quad dev fa fb) Y X VB prior S cancel sv rng with
  | err evs e =>
    simp [histHyperOf]
  | ok st =>
    have hr' := hr
    unfold bsvarRun at hr'
    obtain ⟨-, -, -, hH, -⟩ :=
      runFrom_ok (hyperSpecOps scale quad dev fa fb) Y X VB prior S cancel S 0
        (initState sv rng) st hr'
    simp only [histHyperOf]
    rw [hH]
    intro v hv
    simp only [initState, List.nil_append, List.mem_map] at hv
    obtain ⟨g, hg, rfl⟩ := hv
    obtain ⟨g0, rfl⟩ :=
      cycleSlices_mem (hyperSpecOps scale quad dev fa fb) Y X VB prior S _ g hg
    intro x hx
    have hcy : (gibbsCycle (hyperSpecOps scale quad dev fa fb) Y X VB prior g0).hyper =
        (List.finRange 5).map fun i =>
          (scale prior i + quad g0.B g0.A i) / dev g0.rng i := rfl
    rw [hcy, List.mem_map] at hx
    obtain ⟨i, -, rfl⟩ := hx
    exact div_pos (add_pos_of_pos_of_nonneg (hscale i) (hquad g0.B g0.A i)) (hdev g0.rng i)

/-- Witness for C8: the positivity theorem applied to a concrete one-draw
run of the spec-modelled sampler with unit scales and deviates and zero
quadratic forms, instantiated at the one recorded hyper slice
`[1, 1, 1, 1, 1]` and its first entry. -/
theorem bsvar_C8_witness :
    ((List.finRange 5).map fun _ => ((1 : ℚ) + 0) / 1) ∈ histHyperOf
        (bsvarRun (hyperSpecOps (fun _ _ => 1) (fun _ _ _ => 0) (fun _ _ => 1)
            (fun a _ _ _ _ _ r => (a, r)) (fun b _ _ _ _ _ _ r => (b, r)))
          matW matW [matW] priorW 1 (fun _ => false) svW 0) ∧
    (0 : ℚ) < ((1 : ℚ) + 0) / 1 :=
  ⟨List.mem_singleton.2 rfl,
    bsvar_C8_hyper_positive (fun _ _ => 1) (fun _ _ _ => 0) (fun _ _ => 1)
      (fun a _ _ _ _ _ r => (a, r)) (fun b _ _ _ _ _ _ r => (b, r))
      matW matW [matW] priorW 1 (fun _ => false) svW 0
      (fun _ => one_pos) (fun _ _ _ => le_refl 0) (fun _ _ => one_pos)
      ((List.finRange 5).map fun _ => ((1 : ℚ) + 0) / 1)
      (List.mem_singleton.2 rfl) (((1 : ℚ) + 0) / 1)
      ((List.mem_map).2 ⟨0, List.mem_finRange 0, rfl⟩)⟩

/-- At iteration 0 with no pending interrupt, the loop body always invokes
the samplers — there is no validation path: the iteration either completes
(events: progress, poll, the three sampler calls, record) or aborts at the
history-recording conformance check (events: progress, poll, the three
sampler calls), in both cases only after the three samplers ran. -/
theorem body_zero_events {Rng : Type} (ops : SamplerOps Rng) (Y X : Mat) (VB : List Mat)
    (prior : Prior) (S : Nat) (cancel : Nat → Bool) (st : LoopState Rng)
    (hc : cancel 0 = false) :
    (∃ st1 : LoopState Rng, body ops Y X VB prior S cancel 0 st = .ok st1 ∧
      st1.events = st.events ++ [Event.progress 0, Event.interruptCheck 0,
        Event.sampleHyper 0, Event.sampleA 0, Event.sampleB 0, Event.record 0]) ∨
    body ops Y X VB prior S cancel 0 st =
      .err (st.events ++ [Event.progress 0, Event.interruptCheck 0,
        Event.sampleHyper 0, Event.sampleA 0, Event.sampleB 0])
        (RunError.sliceDimMismatch 0) := by
  simp only [body]
  rw [if_neg (by simp [hc])]
  by_cases hB : (gibbsCycle ops Y X VB prior st.aux).B.n_rows = Y.n_rows ∧
      (gibbsCycle ops Y X VB prior st.aux).B.n_cols = Y.n_rows
  · rw [if_pos hB]
    by_cases hA : (gibbsCycle ops Y X VB prior st.aux).A.n_rows = Y.n_rows ∧
        (gibbsCycle ops Y X VB prior st.aux).A.n_cols = X.n_rows
    · rw [if_pos hA]
      by_cases hh : (gibbsCycle ops Y X VB prior st.aux).hyper.length = 5
      · rw [if_pos hh]
        refine Or.inl ⟨_, rfl, ?_⟩
        simp [progHit_zero, List.append_assoc]
      · rw [if_neg hh]
        refine Or.inr (congrArg₂ Outcome.err ?_ rfl)
        simp [progHit_zero, List.append_assoc]
    · rw [if_neg hA]
      refine Or.inr (congrArg₂ Outcome.err ?_ rfl)
      simp [progHit_zero, List.append_assoc]
  · rw [if_neg hB]
    refine Or.inr (congrArg₂ Outcome.err ?_ rfl)
    simp [progHit_zero, List.append_assoc]

/-- C3 (amended): the entry point performs no dimension validation before
the loop.  For every input — matched or mismatched — with `S > 0` and no
interrupt pending at iteration 0, the host-visible activity starts with the
progress increment, the interrupt poll and then the invocation of the first
sampler: no configuration check and no error precedes the first posterior
draw attempt.  A dimension mismatch surfaces (if at all) only at the
history-recording step inside iteration 0, after all three samplers ran. -/
theorem bsvar_C3_no_validation {Rng : Type} (ops : SamplerOps Rng) (Y X : Mat)
    (VB : List Mat) (prior : Prior) (S : Nat) (cancel : Nat → Bool)
    (sv : StartingValues) (rng : Rng) (hS : 0 < S) (hc : cancel 0 = false) :
    ∃ rest : List Event,
      runEvents (bsvarRun ops Y X VB prior S cancel sv rng) =
        Event.progress 0 :: Event.interruptCheck 0 :: Event.sampleHyper 0 :: rest := by
  obtain ⟨m, rfl⟩ : ∃ m, S = m + 1 := ⟨S - 1, by omega⟩
  unfold bsvarRun
  simp only [runFrom]
  rcases body_zero_events ops Y X VB prior (m + 1) cancel (initState sv rng) hc with
    ⟨st1, hb, hev⟩ | hb
  · obtain ⟨tail, ht⟩ := runFrom_events_extend ops Y X VB prior (m + 1) cancel m 1 st1
    refine ⟨[Event.sampleA 0, Event.sampleB 0, Event.record 0] ++ tail, ?_⟩
    rw [hb]
    show runEvents (runFrom ops Y X VB prior (m + 1) cancel 1 m st1) = _
    rw [ht, hev]
    simp [initState]
  · refine ⟨[Event.sampleA 0, Event.sampleB 0], ?_⟩
    rw [hb]
    simp [runEvents, initState]

/-- Witness for C3 (amended): a concrete well-dimensioned one-draw run whose
trace starts with progress, poll, first sampler call. -/
theorem bsvar_C3_witness :
    ∃ rest : List Event,
      runEvents (bsvarRun constOps matW matW [matW] priorW 1 (fun _ => false) svW ()) =
        Event.progress 0 :: Event.interruptCheck 0 :: Event.sampleHyper 0 :: rest :=
  bsvar_C3_no_validation constOps matW matW [matW] priorW 1 (fun _ => false) svW ()
    (by decide) (by decide)

/-- Counterexample to C3 as stated: a run on mismatched inputs — `Y` is
`2×2` (so `N = 2`) while the starting `B` (and the trivial samplers' output)
is `1×1` — invokes the hyperparameter sampler (a posterior draw is
attempted), and the only error the call raises is the slice-assignment
conformance failure of iteration 0, not a configuration error raised before
any draw. -/
theorem bsvar_C3_counterexample :
    Event.sampleHyper 0 ∈
      runEvents (bsvarRun constOps matY2 matX2 [matW] priorW 1 (fun _ => false) svW ()) ∧
    bsvar constOps matY2 matX2 [matW] priorW 1 (fun _ => false) svW () =
      Except.error (RunError.sliceDimMismatch 0) :=
  ⟨by decide, rfl⟩

/-- If the sampler outputs always carry the dimensions the history buffers
expect, and `s0 < S` is the first poll iteration (`s0 % 200 = 0`) at which
an interrupt is pending, then the run aborts at `s0`: `checkUserInterrupt`
throws after exactly `s0` slices were committed internally, and `bsvar`
returns an error — no result, partial or otherwise, reaches the caller. -/
theorem bsvarRun_first_interrupt {Rng : Type} (ops : SamplerOps Rng) (Y X : Mat)
    (VB : List Mat) (prior : Prior) (S : Nat) (cancel : Nat → Bool)
    (sv : StartingValues) (rng : Rng) (s0 : Nat)
    (hdims : ∀ g : GState Rng,
      (gibbsCycle ops Y X VB prior g).B.n_rows = Y.n_rows ∧
      (gibbsCycle ops Y X VB prior g).B.n_cols = Y.n_rows ∧
      (gibbsCycle ops Y X VB prior g).A.n_rows = Y.n_rows ∧
      (gibbsCycle ops Y X VB prior g).A.n_cols = X.n_rows ∧
      (gibbsCycle ops Y X VB prior g).hyper.length = 5)
    (hs0S : s0 < S) (hs0m : s0 % 200 = 0) (hc : cancel s0 = true)
    (hmin : ∀ t, t < s0 → ¬(t % 200 = 0 ∧ cancel t = true)) :
    ∃ evs : List Event,
      bsvarRun ops Y X VB prior S cancel sv rng = .err evs RunError.interrupted ∧
      evs.countP isRecordEv = s0 ∧
      bsvar ops Y X VB prior S cancel sv rng = Except.error RunError.interrupted := by
  have h1ok : outcomeOk (runFrom ops Y X VB prior S cancel 0 s0 (initState sv rng)) =
      true :=
    runFrom_ok_of ops Y X VB prior S cancel s0 hdims 0 (initState sv rng)
      (fun t ht1 ht2 => hmin t (by omega))
  cases hr1 : runFrom ops Y X VB prior S cancel 0 s0 (initState sv rng) with
  | err evs e =>
    rw [hr1] at h1ok
    simp [outcomeOk] at h1ok
  | ok st0 =>
    obtain ⟨-, -, -, -, hev0⟩ :=
      runFrom_ok ops Y X VB prior S cancel s0 0 (initState sv rng) st0 hr1
    have hd := runFrom_add ops Y X VB prior S cancel s0 (S - s0) 0 (initState sv rng)
    rw [show s0 + (S - s0) = S from by omega] at hd
    rw [hr1] at hd
    have hd2 : runFrom ops Y X VB prior S cancel 0 S (initState sv rng) =
        runFrom ops Y X VB prior S cancel (0 + s0) (S - s0) st0 := hd
    rw [Nat.zero_add] at hd2
    obtain ⟨d, hdd⟩ : ∃ d, S - s0 = d + 1 := ⟨S - s0 - 1, by omega⟩
    rw [hdd] at hd2
    have h3 : runFrom ops Y X VB prior S cancel s0 (d + 1) st0 =
        .err (st0.events ++ (if progHit S s0 then [Event.progress s0] else []) ++
          [Event.interruptCheck s0]) .interrupted := by
      simp only [runFrom]
      rw [body_interrupted ops Y X VB prior S cancel s0 st0 hs0m hc]
    have hrun : bsvarRun ops Y X VB prior S cancel sv rng =
        .err (st0.events ++ (if progHit S s0 then [Event.progress s0] else []) ++
          [Event.interruptCheck s0]) .interrupted := by
      unfold bsvarRun
      rw [hd2, h3]
    refine ⟨_, hrun, ?_, ?_⟩
    · rw [hev0]
      simp only [initState, List.nil_append, List.countP_append]
      rw [flatMap_countP_record]
      by_cases hp : progHit S s0 = true <;>
        simp [hp, isRecordEv, List.countP_cons]
    · unfold bsvar
      rw [hrun]

/-- C4 (amended): cancellation does not yield a partial result.  When an
interrupt is pending, it takes effect only at the next poll boundary
`s0 % 200 = 0` before `S`; the call then aborts by raising the interrupt:
the `s0` slices committed so far are discarded, and `bsvar` returns an
error rather than a partial posterior. -/
theorem bsvar_C4_interrupt_aborts {Rng : Type} (ops : SamplerOps Rng) (Y X : Mat)
    (VB : List Mat) (prior : Prior) (S : Nat) (cancel : Nat → Bool)
    (sv : StartingValues) (rng : Rng) (s0 : Nat)
    (hdims : ∀ g : GState Rng,
      (gibbsCycle ops Y X VB prior g).B.n_rows = Y.n_rows ∧
      (gibbsCycle ops Y X VB prior g).B.n_cols = Y.n_rows ∧
      (gibbsCycle ops Y X VB prior g).A.n_rows = Y.n_rows ∧
      (gibbsCycle ops Y X VB prior g).A.n_cols = X.n_rows ∧
      (gibbsCycle ops Y X VB prior g).hyper.length = 5)
    (hs0S : s0 < S) (hs0m : s0 % 200 = 0) (hc : cancel s0 = true)
    (hmin : ∀ t, t < s0 → ¬(t % 200 = 0 ∧ cancel t = true)) :
    ∃ evs : List Event,
      bsvarRun ops Y X VB prior S cancel sv rng = .err evs RunError.interrupted ∧
      evs.countP isRecordEv = s0 ∧
      bsvar ops Y X VB prior S cancel sv rng = Except.error RunError.interrupted :=
  bsvarRun_first_interrupt ops Y X VB prior S cancel sv rng s0 hdims hs0S hs0m hc hmin

set_option maxRecDepth 8000 in
/-- Witness for C4 (amended): fixed-output samplers, `S = 201`, interrupt
pending from iteration 200 onwards; the run aborts at the poll boundary
`s0 = 200`. -/
theorem bsvar_C4_witness :
    ∃ evs : List Event,
      bsvarRun fixedOps matW matW [matW] priorW 201 (fun s => decide (200 ≤ s)) svW () =
        .err evs RunError.interrupted ∧
      evs.countP isRecordEv = 200 ∧
      bsvar fixedOps matW matW [matW] priorW 201 (fun s => decide (200 ≤ s)) svW () =
        Except.error RunError.interrupted :=
  bsvar_C4_interrupt_aborts fixedOps matW matW [matW] priorW 201
    (fun s => decide (200 ≤ s)) svW () 200
    (fun g => ⟨rfl, rfl, rfl, rfl, rfl⟩) (by decide) (by decide) (by decide) (by decide)

set_option maxRecDepth 8000 in
/-- Counterexample to C4 as stated: cancellation requested during iteration
`k = 1` (`0 < k < S`, pending from iteration 1 onwards) of an `S = 201` run.
The claim predicts a normally returned partial result whose history holds
exactly `k = 1` slice.  Instead the poll only fires at the boundary
`s0 = 200`, the call raises the interrupt as a failure, 200 internally
committed slices are discarded, and no result is returned. -/
theorem bsvar_C4_counterexample :
    ∃ evs : List Event,
      bsvarRun fixedOps matW matW [matW] priorW 201 (fun s => decide (0 < s)) svW () =
        .err evs RunError.interrupted ∧
      evs.countP isRecordEv = 200 ∧
      bsvar fixedOps matW matW [matW] priorW 201 (fun s => decide (0 < s)) svW () =
        Except.error RunError.interrupted :=
  bsvarRun_first_interrupt fixedOps matW matW [matW] priorW 201
    (fun s => decide (0 < s)) svW () 200
    (fun g => ⟨rfl, rfl, rfl, rfl, rfl⟩) (by decide) (by decide) (by decide) (by decide)
